import Mathlib

/-!
# camlistore: access-log handler (`website/logging.go`) and counting transport
(`pkg/httputil/transport.go`)

A shallow embedding of the two Go files and the properties proved about them.

Conventions of the embedding.
* A Go `string` is a Lean `String`, read as its sequence of code points. Go compares
  strings byte by byte; on well-formed UTF-8 that is the comparison of the code point
  sequences, which is what `stringLess` does.
* `int` and `int64` counters (`reqs`, `responseBytes`, statuses, byte counts) are `Int`.
  They only ever count requests and response bytes, far below `2^63`.
* The world outside the program (the downstream `http.ResponseWriter`, the inner
  `http.RoundTripper`, `os.OpenFile`, the clock) is explicit: a state that is threaded
  through, or the outcome of a call given next to the input that triggers it.
* Output is a list of `Event`s in the order the calls are made.
-/

/-! ## The parts of Go's `fmt` and `strconv` the two files use -/

namespace GoFmt

/-- Go's comparison `a < b` on strings: lexicographic, unit by unit. -/
def stringLess : List Char → List Char → Bool
  | _, [] => false
  | [], _ :: _ => true
  | a :: as, b :: bs =>
    if a.toNat < b.toNat then true
    else if b.toNat < a.toNat then false
    else stringLess as bs

/-- The decimal digits of a natural number, most significant first (`strconv`'s loop
`u%10`, `u/10`). -/
def decimal (n : Nat) : List Char := Nat.toDigits 10 n

/-- The verb `%0Wd` of `fmt` (`fmtInteger` with the zero flag and width `W`); `%d` is
`W = 0`. The digits are padded with zeros up to the width, one less for a negative
number, whose sign comes first. -/
def fmtInteger (width : Nat) (n : Int) : String :=
  let digits := decimal n.natAbs
  let prec := if n < 0 then width - 1 else width
  let padded := List.replicate (prec - digits.length) '0' ++ digits
  String.mk (if n < 0 then '-' :: padded else padded)

/-- Lower-case hexadecimal digit (`lowerhex[i]`). -/
def lowerhex (i : Nat) : Char := Nat.digitChar (i % 16)

/-- The function `strconv.IsPrint`: decided in the code for runes up to `0xFF`; above
that Go consults Unicode tables, which are the parameter `table`. -/
def IsPrint (table : Char → Bool) (r : Char) : Bool :=
  if r.toNat ≤ 0xFF then
    if 0x20 ≤ r.toNat ∧ r.toNat ≤ 0x7E then true
    else if 0xA1 ≤ r.toNat ∧ r.toNat ≤ 0xFF then r.toNat != 0xAD
    else false
  else table r

/-- The function `appendEscapedRune` of `strconv` for the quote character `"`, neither
ASCII-only nor graphic-only (what `%q` uses). -/
def escapedRune (table : Char → Bool) (r : Char) : List Char :=
  if r = Char.ofNat 34 ∨ r = Char.ofNat 92 then [Char.ofNat 92, r]
  else if IsPrint table r then [r]
  else if r.toNat = 7 then [Char.ofNat 92, 'a']
  else if r.toNat = 8 then [Char.ofNat 92, 'b']
  else if r.toNat = 12 then [Char.ofNat 92, 'f']
  else if r.toNat = 10 then [Char.ofNat 92, 'n']
  else if r.toNat = 13 then [Char.ofNat 92, 'r']
  else if r.toNat = 9 then [Char.ofNat 92, 't']
  else if r.toNat = 11 then [Char.ofNat 92, 'v']
  else if r.toNat < 0x20 ∨ r.toNat = 0x7F then
    [Char.ofNat 92, 'x', lowerhex (r.toNat / 16), lowerhex r.toNat]
  else if r.toNat < 0x10000 then
    [Char.ofNat 92, 'u', lowerhex (r.toNat / 4096), lowerhex (r.toNat / 256),
      lowerhex (r.toNat / 16), lowerhex r.toNat]
  else
    [Char.ofNat 92, 'U', lowerhex (r.toNat / 268435456), lowerhex (r.toNat / 16777216),
      lowerhex (r.toNat / 1048576), lowerhex (r.toNat / 65536), lowerhex (r.toNat / 4096),
      lowerhex (r.toNat / 256), lowerhex (r.toNat / 16), lowerhex r.toNat]

/-- The verb `%q` on a string (`strconv.Quote`): the escaped runes between two double
quotes. -/
def quote (table : Char → Bool) (s : String) : String :=
  String.mk (Char.ofNat 34 :: (s.toList.flatMap (escapedRune table) ++ [Char.ofNat 34]))

end GoFmt

/-! ## `website/logging.go` -/

namespace Website

open GoFmt

/-- The fields of a `time.Time` in UTC that the handler reads: `Year()`, `Month()`,
`Day()`, `Hour()`, `Minute()`, `Second()`. -/
structure Time where
  year : Int
  month : Nat
  day : Nat
  hour : Nat
  minute : Nat
  second : Nat
  deriving DecidableEq

/-- The ranges `time.Time` guarantees for its calendar fields. -/
def Time.Valid (t : Time) : Prop :=
  1 ≤ t.month ∧ t.month ≤ 12 ∧ 1 ≤ t.day ∧ t.day ≤ 31 ∧ t.hour < 24 ∧ t.minute < 60 ∧
    t.second < 60

instance (t : Time) : Decidable t.Valid := by
  unfold Time.Valid; infer_instance

/-- The record `logRecord`, without the embedded downstream `http.ResponseWriter`, whose
state is threaded next to the record. -/
structure logRecord where
  time : Time
  ip : String
  method : String
  rawpath : String
  responseBytes : Int
  responseStatus : Int
  responseWritten : Bool
  userAgent : String
  referer : String
  proto : String
  deriving DecidableEq

/-- An `http.ResponseWriter` with state `σ`: `Write` returns the count and the error
(`none` for `nil`), `WriteHeader` returns nothing. -/
structure ResponseWriter (σ : Type) where
  Write : σ → List UInt8 → σ × (Int × Option String)
  WriteHeader : σ → Int → σ

/-- The method `(*logRecord).Write`. -/
def logRecord.Write {σ : Type} (rw : ResponseWriter σ) (lr : logRecord) (w : σ)
    (p : List UInt8) : (logRecord × σ) × (Int × Option String) :=
  let lr1 :=
    if !lr.responseWritten then { lr with responseWritten := true, responseStatus := 200 }
    else lr
  let (w1, (written, err)) := rw.Write w p
  (({ lr1 with responseBytes := lr1.responseBytes + written }, w1), (written, err))

/-- The method `(*logRecord).WriteHeader`. -/
def logRecord.WriteHeader {σ : Type} (rw : ResponseWriter σ) (lr : logRecord) (w : σ)
    (status : Int) : logRecord × σ :=
  if lr.responseWritten then (lr, w)
  else ({ lr with responseStatus := status, responseWritten := true }, rw.WriteHeader w status)

/-- One call of the inner handler on the record it is given as its response writer. -/
inductive Call where
  | Write (p : List UInt8)
  | WriteHeader (status : Int)
  deriving DecidableEq

/-- The calls of an inner handler, one after another; the results of the `Write` calls
are collected in call order. -/
def logRecord.calls {σ : Type} (rw : ResponseWriter σ) :
    logRecord × σ → List Call → (logRecord × σ) × List (Int × Option String)
  | s, [] => (s, [])
  | s, Call.Write p :: rest =>
    let (s1, res) := logRecord.Write rw s.1 s.2 p
    let (s2, ress) := logRecord.calls rw s1 rest
    (s2, res :: ress)
  | s, Call.WriteHeader status :: rest =>
    logRecord.calls rw (logRecord.WriteHeader rw s.1 s.2 status) rest

/-- What `ServeHTTP` reads of an `*http.Request`. -/
structure Request where
  RemoteAddr : String
  Method : String
  RequestURI : String
  UserAgent : String
  Referer : String
  Proto : String
  deriving DecidableEq

/-- The loop of `strings.LastIndex(s, ":")` for a one-byte separator: the greatest index
below `i` that holds `c`, or `-1`. -/
def lastIndexBelow (s : List Char) (c : Char) : Nat → Int
  | 0 => -1
  | i + 1 => if s.get? i = some c then (i : Int) else lastIndexBelow s c i

/-- The function `strings.LastIndex(s, ":")`. -/
def LastIndex (s : String) (c : Char) : Int := lastIndexBelow s.toList c s.toList.length

/-- The first lines of `ServeHTTP`: "Strip port number from address". -/
def stripPort (addr : String) : String :=
  let colon := LastIndex addr ':'
  if colon ≠ -1 then String.mk (addr.toList.take colon.toNat) else addr

/-- The record `ServeHTTP` builds before it calls the inner handler; `now` is
`time.Now().UTC()`. The source line for `responseWritten` lacks the colon of the
composite literal; it is read as `responseWritten: false`, which is also the zero value
the field has when the line is left out. -/
def newLogRecord (now : Time) (r : Request) : logRecord :=
  { time := now
    ip := stripPort r.RemoteAddr
    method := r.Method
    rawpath := r.RequestURI
    userAgent := r.UserAgent
    referer := r.Referer
    responseStatus := 200
    responseBytes := 0
    responseWritten := false
    proto := r.Proto }

/-- The handler `logHandler`: the fields the writer reads. -/
structure logHandler where
  dir : String
  stdout : Bool
  deriving DecidableEq

/-- The method `ServeHTTP`: build the record, run the inner handler (its calls on the
record), send the record on the channel `ch`. -/
def logHandler.ServeHTTP {σ : Type} (rw : ResponseWriter σ) (handler : List Call) (now : Time)
    (r : Request) (w : σ) (ch : List logRecord) : σ × List logRecord :=
  let s := (logRecord.calls rw (newLogRecord now r, w) handler).1
  (s.2, ch ++ [s.1])

/-- The table `monthAbbr`. -/
def monthAbbr : List String :=
  ["Jan", "Feb", "Mar", "Apr", "May", "Jun", "Jul", "Aug", "Sep", "Oct", "Nov", "Dec"]

/-- The string `dateString` of `logFromChannel`. `Month()` is in 1..12 for every
`time.Time`, so the index into `monthAbbr` is in range; outside that range, which
`Time.Valid` excludes, the model gives the empty string where Go would panic. -/
def dateString (t : Time) : String :=
  fmtInteger 2 t.day ++ "/" ++ monthAbbr.getD (t.month - 1) "" ++ "/" ++ fmtInteger 4 t.year
    ++ ":" ++ fmtInteger 2 t.hour ++ ":" ++ fmtInteger 2 t.minute ++ ":"
    ++ fmtInteger 2 t.second ++ " -0000"

/-- The string `fileName` of `logFromChannel`. -/
def fileName (dir : String) (t : Time) : String :=
  dir ++ "/" ++ fmtInteger 4 t.year ++ "-" ++ fmtInteger 2 t.month ++ "-" ++ fmtInteger 2 t.day
    ++ "h" ++ fmtInteger 2 t.hour ++ ".log"

/-- The string `logLine` of `logFromChannel`. -/
def logLine (table : Char → Bool) (lr : logRecord) : String :=
  lr.ip ++ " - - [" ++ dateString lr.time ++ "] "
    ++ quote table (lr.method ++ " " ++ lr.rawpath ++ " " ++ lr.proto) ++ " "
    ++ fmtInteger 0 lr.responseStatus ++ " " ++ fmtInteger 0 lr.responseBytes ++ " "
    ++ quote table lr.referer ++ " " ++ quote table lr.userAgent ++ "\n"

/-- What the writer does to the world, in order. A file is named by the name it was
opened under. -/
inductive Event where
  | close (file : String)
  | openFile (name : String) (ok : Bool)
  | processLog (msg : String)
  | stdoutWrite (line : String)
  | fileWrite (file : String) (line : String)
  deriving DecidableEq

/-- The local variables of `logFromChannel`: `lastFileName` and `logFile` (`none` is
`nil`). -/
structure WriterState where
  lastFileName : String
  logFile : Option String
  deriving DecidableEq

/-- The state `logFromChannel` starts in. -/
def WriterState.initial : WriterState := { lastFileName := "", logFile := none }

/-- One turn of the loop of `logFromChannel` on the record `lr`. `openErr` is what
`os.OpenFile` answers if the turn calls it: `none` for success, `some e` for the error
`e`, in which case the file returned is `nil`. -/
def logStep (table : Char → Bool) (h : logHandler) (st : WriterState) (lr : logRecord)
    (openErr : Option String) : WriterState × List Event :=
  let line := logLine table lr
  let emit (st1 : WriterState) (evs : List Event) : WriterState × List Event :=
    let evs1 := if h.stdout then evs ++ [Event.stdoutWrite line] else evs
    match st1.logFile with
    | some f => (st1, evs1 ++ [Event.fileWrite f line])
    | none => (st1, evs1)
  if h.dir ≠ "" then
    let name := fileName h.dir lr.time
    if stringLess st.lastFileName.toList name.toList then
      let closed := match st.logFile with
        | some f => [Event.close f]
        | none => []
      match openErr with
      | some e =>
        ({ lastFileName := st.lastFileName, logFile := none },
          closed ++ [Event.openFile name false,
            Event.processLog ("Error opening " ++ quote table name ++ ": " ++ e)])
      | none =>
        emit { lastFileName := name, logFile := some name }
          (closed ++ [Event.openFile name true])
    else emit st []
  else emit st []

/-- The loop of `logFromChannel` over the records received so far, each with the answer
`os.OpenFile` would give for it. -/
def logLoop (table : Char → Bool) (h : logHandler) :
    WriterState → List (logRecord × Option String) → WriterState × List Event
  | st, [] => (st, [])
  | st, (lr, openErr) :: rest =>
    let (st1, evs) := logStep table h st lr openErr
    let (st2, evs2) := logLoop table h st1 rest
    (st2, evs ++ evs2)

/-- The function `logFromChannel`: the loop from the initial state. -/
def logFromChannel (table : Char → Bool) (h : logHandler)
    (received : List (logRecord × Option String)) : WriterState × List Event :=
  logLoop table h WriterState.initial received

/-! ### The notions the properties of the writer are stated with -/

/-- Exactly `w` decimal digits of `n`, the most significant first: `n` written in `w`
digits with leading zeros. -/
def fixedDigits : Nat → Nat → List Char
  | 0, _ => []
  | w + 1, n => fixedDigits w (n / 10) ++ [Nat.digitChar (n % 10)]

/-- A number below 100 in two digits, zero-padded. -/
def twoDigits (n : Nat) : String := String.mk [Nat.digitChar (n / 10), Nat.digitChar (n % 10)]

/-- A number below 10000 in four digits, zero-padded. -/
def fourDigits (n : Nat) : String :=
  String.mk [Nat.digitChar (n / 1000), Nat.digitChar (n / 100 % 10),
    Nat.digitChar (n / 10 % 10), Nat.digitChar (n % 10)]

/-- The English three-letter abbreviation of the month with number `m`. -/
def englishMonth : Nat → String
  | 1 => "Jan"
  | 2 => "Feb"
  | 3 => "Mar"
  | 4 => "Apr"
  | 5 => "May"
  | 6 => "Jun"
  | 7 => "Jul"
  | 8 => "Aug"
  | 9 => "Sep"
  | 10 => "Oct"
  | 11 => "Nov"
  | 12 => "Dec"
  | _ => ""

/-- A printable ASCII character other than the double quote and the backslash. -/
def plainChar (c : Char) : Prop :=
  0x20 ≤ c.toNat ∧ c.toNat ≤ 0x7E ∧ c ≠ Char.ofNat 34 ∧ c ≠ Char.ofNat 92

instance (c : Char) : Decidable (plainChar c) := by
  unfold plainChar; infer_instance

/-- A string of plain characters. -/
def plainString (s : String) : Prop := ∀ c ∈ s.toList, plainChar c

instance (s : String) : Decidable (plainString s) := by
  unfold plainString; infer_instance

/-- The year lies in the range 0..9999 that four digits hold. -/
def Time.fourDigitYear (t : Time) : Prop := 0 ≤ t.year ∧ t.year ≤ 9999

instance (t : Time) : Decidable t.fourDigitYear := by
  unfold Time.fourDigitYear; infer_instance

/-- Two timestamps fall in the same date and hour. -/
def Time.sameHour (a b : Time) : Prop :=
  a.year = b.year ∧ a.month = b.month ∧ a.day = b.day ∧ a.hour = b.hour

instance (a b : Time) : Decidable (a.sameHour b) := by
  unfold Time.sameHour; infer_instance

/-- The date and hour of `a` come before those of `b`: (year, month, day, hour) compared
field by field, the year first. -/
def Time.hourBefore (a b : Time) : Prop :=
  a.year < b.year ∨ (a.year = b.year ∧ (a.month < b.month ∨ (a.month = b.month ∧
    (a.day < b.day ∨ (a.day = b.day ∧ a.hour < b.hour)))))

instance (a b : Time) : Decidable (a.hourBefore b) := by
  unfold Time.hourBefore; infer_instance

/-- The timestamp `a` is not later than `b`. -/
def Time.notAfter (a b : Time) : Prop :=
  a.hourBefore b ∨ (a.sameHour b ∧
    (a.minute < b.minute ∨ (a.minute = b.minute ∧ a.second ≤ b.second)))

instance (a b : Time) : Decidable (a.notAfter b) := by
  unfold Time.notAfter; infer_instance

/-- The writes to files among the events, in order: the file and the line. -/
def fileWrites : List Event → List (String × String)
  | [] => []
  | Event.fileWrite f line :: rest => (f, line) :: fileWrites rest
  | _ :: rest => fileWrites rest

/-- The lines appended to the file `name`, in order. -/
def fileLines (name : String) (evs : List Event) : List String :=
  ((fileWrites evs).filter (fun x => x.1 = name)).map Prod.snd

/-- The lines written to standard output, in order. -/
def stdoutLines : List Event → List String
  | [] => []
  | Event.stdoutWrite line :: rest => line :: stdoutLines rest
  | _ :: rest => stdoutLines rest

/-- The names of the files that were opened, in order. -/
def opened : List Event → List String
  | [] => []
  | Event.openFile name true :: rest => name :: opened rest
  | _ :: rest => opened rest

/-- Whether at most one file is open at any moment: starting with the open file `cur`
(or none), a file is only opened when none is open, only the open file is closed, and
lines only go to the open file. -/
def oneFileAtATime : Option String → List Event → Bool
  | _, [] => true
  | cur, Event.openFile name ok :: rest =>
    cur = none && oneFileAtATime (if ok then some name else none) rest
  | cur, Event.close f :: rest => cur = some f && oneFileAtATime none rest
  | cur, Event.fileWrite f _ :: rest => cur = some f && oneFileAtATime cur rest
  | cur, _ :: rest => oneFileAtATime cur rest

/-- Rotation by the hour, for one record, when every open succeeds and `cur` is the open
file: if `cur` is not the file of the record's date and hour, `cur` is closed and that
file opened; then the line goes to standard output, if enabled, and to the file. -/
def hourlyStep (table : Char → Bool) (h : logHandler) (cur : Option String) (lr : logRecord) :
    List Event :=
  (if cur = some (fileName h.dir lr.time) then []
    else (match cur with
      | some f => [Event.close f]
      | none => []) ++ [Event.openFile (fileName h.dir lr.time) true])
    ++ (if h.stdout then [Event.stdoutWrite (logLine table lr)] else [])
    ++ [Event.fileWrite (fileName h.dir lr.time) (logLine table lr)]

/-- Rotation by the hour for a sequence of records. -/
def hourlyTrace (table : Char → Bool) (h : logHandler) :
    Option String → List logRecord → List Event
  | _, [] => []
  | cur, lr :: rest =>
    hourlyStep table h cur lr ++ hourlyTrace table h (some (fileName h.dir lr.time)) rest

/-- The names a sequence of names makes the writer open, when `cur` is open: every name
that differs from the one before it. -/
def rotations : Option String → List String → List String
  | _, [] => []
  | cur, name :: rest =>
    (if cur = some name then [] else [name]) ++ rotations (some name) rest

/-- A downstream writer for examples: it accepts at most `limit` bytes of each `Write`,
reports `short write` when it took fewer than it was given, and keeps what it received. -/
inductive Received where
  | header (status : Int)
  | body (p : List UInt8)
  deriving DecidableEq

/-- The example downstream writer; its state is the list of what reached it. -/
def bounded (limit : Nat) : ResponseWriter (List Received) where
  Write := fun w p =>
    (w ++ [Received.body (p.take limit)],
      (((p.take limit).length : Int), if limit < p.length then some "short write" else none))
  WriteHeader := fun w status => w ++ [Received.header status]

/-- A timestamp for examples: 2024-01-02 10:59:59 UTC. -/
def exampleTime : Time := ⟨2024, 1, 2, 10, 59, 59⟩

/-- A record for examples: the request below, answered with 200 and 5 bytes. -/
def exampleRecord : logRecord :=
  { time := exampleTime, ip := "203.0.113.7", method := "GET", rawpath := "/index.html?q=1",
    responseBytes := 5, responseStatus := 200, responseWritten := true,
    userAgent := "curl/8.5.0", referer := "http://example.org/", proto := "HTTP/1.1" }

/-- A request for examples. -/
def exampleRequest : Request :=
  { RemoteAddr := "203.0.113.7:54321", Method := "GET", RequestURI := "/index.html?q=1",
    UserAgent := "curl/8.5.0", Referer := "http://example.org/", Proto := "HTTP/1.1" }

/-- The first status an inner handler passes to `WriteHeader`, if it calls it. -/
def firstHeaderStatus : List Call → Option Int
  | [] => none
  | Call.WriteHeader status :: _ => some status
  | Call.Write _ :: rest => firstHeaderStatus rest

/-- Whether the first call of an inner handler is a `Write`. -/
def startsWithWrite : List Call → Bool
  | Call.Write _ :: _ => true
  | _ => false

end Website

/-! ## `pkg/httputil/transport.go` -/

namespace Httputil

/-- What `RoundTrip` reads of an `*http.Request`; `URL` is the text `%s` prints. -/
structure Request where
  Method : String
  URL : String
  deriving DecidableEq

end Httputil

/-! ## The response-writer wrapper: status, byte count, frozen status -/

namespace Website

theorem Write_status {σ : Type} (rw : ResponseWriter σ) (lr : logRecord) (w : σ)
    (p : List UInt8) :
    (logRecord.Write rw lr w p).1.1.responseWritten = true ∧
      (logRecord.Write rw lr w p).1.1.responseStatus
        = if lr.responseWritten then lr.responseStatus else 200 := by
  unfold logRecord.Write
  cases h : lr.responseWritten <;> simp [h]

theorem WriteHeader_written {σ : Type} (rw : ResponseWriter σ) (lr : logRecord) (w : σ)
    (status : Int) :
    (logRecord.WriteHeader rw lr w status).1.responseWritten = true ∧
      (logRecord.WriteHeader rw lr w status).1.responseBytes = lr.responseBytes ∧
      (logRecord.WriteHeader rw lr w status).1.responseStatus
        = if lr.responseWritten then lr.responseStatus else status := by
  unfold logRecord.WriteHeader
  cases h : lr.responseWritten <;> simp [h]

theorem calls_cons_Write {σ : Type} (rw : ResponseWriter σ) (s : logRecord × σ)
    (p : List UInt8) (rest : List Call) :
    logRecord.calls rw s (Call.Write p :: rest)
      = ((logRecord.calls rw (logRecord.Write rw s.1 s.2 p).1 rest).1,
          (logRecord.Write rw s.1 s.2 p).2
            :: (logRecord.calls rw (logRecord.Write rw s.1 s.2 p).1 rest).2) := by
  rfl

theorem calls_cons_WriteHeader {σ : Type} (rw : ResponseWriter σ) (s : logRecord × σ)
    (status : Int) (rest : List Call) :
    logRecord.calls rw s (Call.WriteHeader status :: rest)
      = logRecord.calls rw (logRecord.WriteHeader rw s.1 s.2 status) rest := by
  rfl

/-- Once the flag is set, no sequence of calls changes the status or clears the flag. -/
theorem calls_frozen {σ : Type} (rw : ResponseWriter σ) (handler : List Call) :
    ∀ s : logRecord × σ, s.1.responseWritten = true →
      (logRecord.calls rw s handler).1.1.responseStatus = s.1.responseStatus ∧
        (logRecord.calls rw s handler).1.1.responseWritten = true := by
  induction handler with
  | nil => intro s hs; exact ⟨rfl, hs⟩
  | cons c rest ih =>
    intro s hs
    cases c with
    | Write p =>
      rw [calls_cons_Write]
      have h1 := Write_status rw s.1 s.2 p
      have h2 := ih (logRecord.Write rw s.1 s.2 p).1 h1.1
      simp only [hs, if_true] at h1
      exact ⟨h2.1.trans h1.2, h2.2⟩
    | WriteHeader status =>
      rw [calls_cons_WriteHeader]
      have h1 := WriteHeader_written rw s.1 s.2 status
      have h2 := ih (logRecord.WriteHeader rw s.1 s.2 status) h1.1
      simp only [hs, if_true] at h1
      exact ⟨h2.1.trans h1.2.2, h2.2⟩

/-- The status after the calls of an inner handler on a fresh record. -/
theorem calls_status_fresh {σ : Type} (rw : ResponseWriter σ) (now : Time) (r : Request)
    (w : σ) (handler : List Call) :
    (logRecord.calls rw (newLogRecord now r, w) handler).1.1.responseStatus
      = match handler with
        | Call.WriteHeader status :: _ => status
        | _ => 200 := by
  cases handler with
  | nil => rfl
  | cons c rest =>
    cases c with
    | Write p =>
      rw [calls_cons_Write]
      have h1 := Write_status rw (newLogRecord now r) w p
      have h2 := calls_frozen rw rest (logRecord.Write rw (newLogRecord now r) w p).1 h1.1
      rw [h2.1, h1.2]; rfl
    | WriteHeader status =>
      rw [calls_cons_WriteHeader]
      have h1 := WriteHeader_written rw (newLogRecord now r) w status
      have h2 := calls_frozen rw rest (logRecord.WriteHeader rw (newLogRecord now r) w status)
        h1.1
      rw [h2.1, h1.2.2]; rfl

end Website

/-! ## Claims on the response-writer wrapper -/

namespace Website

/-- C1, as stated, fails: a handler that writes a body and then calls `WriteHeader(404)`
passes 404 as its first status to `WriteHeader`, and the record keeps status 200. -/
theorem status_not_first_WriteHeader_after_Write :
    firstHeaderStatus [Call.Write [120], Call.WriteHeader 404] = some 404 ∧
      (logRecord.calls (bounded 4096) (newLogRecord exampleTime exampleRequest, [])
        [Call.Write [120], Call.WriteHeader 404]).1.1.responseStatus = 200 := by
  decide

/-- C1, amended: after any sequence of `Write` and `WriteHeader` calls on a fresh record
the status is 200 when the first call is a `Write`, and otherwise the first status passed
to `WriteHeader`, or 200 when `WriteHeader` is never called. -/
theorem status_first_WriteHeader_unless_Write_first {σ : Type} (rw : ResponseWriter σ)
    (now : Time) (r : Request) (w : σ) (handler : List Call) :
    (logRecord.calls rw (newLogRecord now r, w) handler).1.1.responseStatus
      = if startsWithWrite handler then 200 else (firstHeaderStatus handler).getD 200 := by
  rw [calls_status_fresh]
  cases handler with
  | nil => rfl
  | cons c rest => cases c <;> rfl

/-- The scenarios S1 and S2, and a downstream that takes 3 of 5 bytes and reports an
error: the byte count is what the downstream accepted. -/
theorem responseBytes_scenarios :
    (logRecord.calls (bounded 4096) (newLogRecord exampleTime exampleRequest, [])
        [Call.Write [104, 101, 108, 108, 111]]).1.1.responseStatus = 200 ∧
    (logRecord.calls (bounded 4096) (newLogRecord exampleTime exampleRequest, [])
        [Call.Write [104, 101, 108, 108, 111]]).1.1.responseBytes = 5 ∧
    (logRecord.calls (bounded 4096) (newLogRecord exampleTime exampleRequest, [])
        [Call.WriteHeader 404,
          Call.Write [1, 2, 3, 4, 5, 6, 7, 8, 9, 10, 11, 12]]).1.1.responseStatus = 404 ∧
    (logRecord.calls (bounded 4096) (newLogRecord exampleTime exampleRequest, [])
        [Call.WriteHeader 404,
          Call.Write [1, 2, 3, 4, 5, 6, 7, 8, 9, 10, 11, 12]]).1.1.responseBytes = 12 ∧
    (logRecord.calls (bounded 3) (newLogRecord exampleTime exampleRequest, [])
        [Call.Write [104, 101, 108, 108, 111], Call.Write [33]]).1.1.responseBytes = 4 ∧
    (logRecord.calls (bounded 3) (newLogRecord exampleTime exampleRequest, [])
        [Call.Write [104, 101, 108, 108, 111], Call.Write [33]]).2
      = [(3, some "short write"), (1, none)] := by
  decide

/-- C8: on a record whose flag `responseWritten` is set, `WriteHeader` with any status
returns the record and the downstream state as they were (status, byte count and flag
unchanged, nothing forwarded), a `Write` leaves the status as it was, and so does every
sequence of further calls; and any record has the flag set after one call. -/
theorem status_frozen_once_written {σ : Type} (rw : ResponseWriter σ) (lr : logRecord)
    (w : σ) (hw : lr.responseWritten = true) :
    (∀ status : Int, logRecord.WriteHeader rw lr w status = (lr, w)) ∧
      (∀ p : List UInt8,
        (logRecord.Write rw lr w p).1.1.responseStatus = lr.responseStatus ∧
          (logRecord.Write rw lr w p).1.1.responseWritten = true) ∧
      (∀ handler : List Call,
        (logRecord.calls rw (lr, w) handler).1.1.responseStatus = lr.responseStatus) ∧
      (∀ (lr0 : logRecord) (w0 : σ) (c : Call),
        (logRecord.calls rw (lr0, w0) [c]).1.1.responseWritten = true) := by
  refine ⟨fun status => ?_, fun p => ?_, fun handler => ?_, fun lr0 w0 c => ?_⟩
  · simp [logRecord.WriteHeader, hw]
  · have h := Write_status rw lr w p
    simp only [hw, if_true] at h
    exact ⟨h.2, h.1⟩
  · exact (calls_frozen rw handler (lr, w) hw).1
  · cases c with
    | Write p => exact (Write_status rw lr0 w0 p).1
    | WriteHeader status => exact (WriteHeader_written rw lr0 w0 status).1

/-- The scenario S3: after `WriteHeader(500)` on a fresh record the flag is set, so the
second `WriteHeader(500)` changes nothing: status 500, 0 bytes, and one `WriteHeader`
reached the downstream writer. -/
theorem status_frozen_once_written_S3 :
    (logRecord.WriteHeader (bounded 4096) (newLogRecord exampleTime exampleRequest) []
        500).1.responseWritten = true ∧
      logRecord.WriteHeader (bounded 4096)
          (logRecord.WriteHeader (bounded 4096) (newLogRecord exampleTime exampleRequest) []
            500).1 [Received.header 500] 500
        = ((logRecord.WriteHeader (bounded 4096) (newLogRecord exampleTime exampleRequest) []
            500).1, [Received.header 500]) ∧
      (logRecord.calls (bounded 4096) (newLogRecord exampleTime exampleRequest, [])
          [Call.WriteHeader 500, Call.WriteHeader 500]).1.1.responseStatus = 500 ∧
      (logRecord.calls (bounded 4096) (newLogRecord exampleTime exampleRequest, [])
          [Call.WriteHeader 500, Call.WriteHeader 500]).1.1.responseBytes = 0 ∧
      (logRecord.calls (bounded 4096) (newLogRecord exampleTime exampleRequest, [])
          [Call.WriteHeader 500, Call.WriteHeader 500]).1.2 = [Received.header 500] :=
  ⟨by decide,
    (status_frozen_once_written (bounded 4096)
      (logRecord.WriteHeader (bounded 4096) (newLogRecord exampleTime exampleRequest) []
        500).1 [Received.header 500] (by decide)).1 500,
    by decide, by decide, by decide⟩

end Website

/-! ## The client address -/

namespace Website

/-- What the loop of `LastIndex` returns: `-1` when no index below `i` holds `c`, and
otherwise the greatest such index. -/
theorem lastIndexBelow_spec (s : List Char) (c : Char) (i : Nat) :
    (lastIndexBelow s c i = -1 ∧ ∀ j, j < i → s.get? j ≠ some c) ∨
      ∃ k : Nat, lastIndexBelow s c i = (k : Int) ∧ k < i ∧ s.get? k = some c ∧
        ∀ j, k < j → j < i → s.get? j ≠ some c := by
  induction i with
  | zero => left; exact ⟨rfl, fun j hj => absurd hj (Nat.not_lt_zero j)⟩
  | succ i ih =>
    by_cases h : s.get? i = some c
    · right
      refine ⟨i, by simp only [lastIndexBelow, h, if_true], Nat.lt_succ_self i, h,
        fun j h1 h2 => ?_⟩
      omega
    · have e : lastIndexBelow s c (i + 1) = lastIndexBelow s c i := by
        simp only [lastIndexBelow, h, if_false]
      rw [e]
      rcases ih with ⟨h1, h2⟩ | ⟨k, h1, h2, h3, h4⟩
      · left
        refine ⟨h1, fun j hj => ?_⟩
        rcases Nat.lt_succ_iff_lt_or_eq.mp hj with hlt | heq
        · exact h2 j hlt
        · rw [heq]; exact h
      · right
        refine ⟨k, h1, Nat.lt_succ_of_lt h2, h3, fun j hj1 hj2 => ?_⟩
        rcases Nat.lt_succ_iff_lt_or_eq.mp hj2 with hlt | heq
        · exact h4 j hj1 hlt
        · rw [heq]; exact h

theorem not_mem_of_get?_ne (s : List Char) (c : Char)
    (h : ∀ j, j < s.length → s.get? j ≠ some c) : c ∉ s := by
  intro hc
  obtain ⟨n, hn, hget⟩ := List.getElem_of_mem hc
  apply h n hn
  rw [List.get?_eq_getElem?, List.getElem?_eq_getElem hn, hget]

/-- The address splits at the index `LastIndex` finds. -/
theorem stripPort_split (addr : String) (hc : ':' ∈ addr.toList) :
    ∃ rest : List Char, ':' ∉ rest ∧
      addr.toList = (stripPort addr).toList ++ ':' :: rest := by
  unfold stripPort LastIndex
  rcases lastIndexBelow_spec addr.toList ':' addr.toList.length with ⟨_, h2⟩ | ⟨k, h1, h2, h3, h4⟩
  · exact absurd hc (not_mem_of_get?_ne _ _ h2)
  · have hne : ((k : Int) ≠ -1) := by omega
    simp only [h1, hne, ne_eq, not_false_eq_true, if_true, Int.toNat_ofNat]
    refine ⟨addr.toList.drop (k + 1), ?_, ?_⟩
    · apply not_mem_of_get?_ne
      intro j hj
      rw [List.length_drop] at hj
      have := h4 (k + 1 + j) (by omega) (by omega)
      rwa [List.get?_eq_getElem?, List.getElem?_drop, ← List.get?_eq_getElem?]
    · have hk : addr.toList[k]? = some ':' := by rw [← List.get?_eq_getElem?]; exact h3
      have hk2 : addr.toList[k] = ':' := by
        rw [List.getElem?_eq_getElem h2] at hk
        exact Option.some.inj hk
      show addr.toList = List.take k addr.toList ++ ':' :: List.drop (k + 1) addr.toList
      rw [← hk2, List.getElem_cons_drop _ _ h2, List.take_append_drop]

theorem lastIndexBelow_append (host port : List Char) (c : Char) (hp : c ∉ port) (n : Nat)
    (hn : n ≤ port.length) :
    lastIndexBelow (host ++ c :: port) c (host.length + 1 + n) = (host.length : Int) := by
  induction n with
  | zero =>
    have hget : (host ++ c :: port).get? host.length = some c := by
      rw [List.get?_eq_getElem?, List.getElem?_append_right (le_refl _)]
      simp
    show lastIndexBelow (host ++ c :: port) c (host.length + 1) = _
    simp only [lastIndexBelow, hget, if_true]
  | succ n ih =>
    show lastIndexBelow (host ++ c :: port) c ((host.length + 1 + n) + 1) = _
    have hget : (host ++ c :: port).get? (host.length + 1 + n) ≠ some c := by
      rw [List.get?_eq_getElem?, List.getElem?_append_right (by omega)]
      have : host.length + 1 + n - host.length = n + 1 := by omega
      rw [this, List.getElem?_cons_succ]
      intro hcon
      exact hp (List.getElem?_mem hcon)
    simp only [lastIndexBelow, hget, if_false]
    exact ih (by omega)

theorem stripPort_append (host port : String) (hp : ':' ∉ port.toList) :
    stripPort (host ++ ":" ++ port) = host := by
  unfold stripPort LastIndex
  have hl : (host ++ ":" ++ port).toList = host.toList ++ ':' :: port.toList := by
    simp [String.toList, String.data_append]
  rw [hl]
  have hlen : (host.toList ++ ':' :: port.toList).length
      = host.toList.length + 1 + port.toList.length := by
    simp; omega
  rw [hlen, lastIndexBelow_append host.toList port.toList ':' hp _ (le_refl _)]
  have hne : ((host.toList.length : Int) ≠ -1) := by omega
  simp [hne]

/-- The calls of the inner handler leave the address, the time and the request fields of
the record alone. -/
theorem calls_keeps_request_fields {σ : Type} (rw : ResponseWriter σ) (handler : List Call) :
    ∀ s : logRecord × σ,
      (logRecord.calls rw s handler).1.1.ip = s.1.ip ∧
        (logRecord.calls rw s handler).1.1.time = s.1.time := by
  induction handler with
  | nil => intro s; exact ⟨rfl, rfl⟩
  | cons c rest ih =>
    intro s
    cases c with
    | Write p =>
      rw [calls_cons_Write]
      have h := ih (logRecord.Write rw s.1 s.2 p).1
      have h1 : (logRecord.Write rw s.1 s.2 p).1.1.ip = s.1.ip ∧
          (logRecord.Write rw s.1 s.2 p).1.1.time = s.1.time := by
        unfold logRecord.Write
        cases s.1.responseWritten <;> simp
      exact ⟨h.1.trans h1.1, h.2.trans h1.2⟩
    | WriteHeader status =>
      rw [calls_cons_WriteHeader]
      have h := ih (logRecord.WriteHeader rw s.1 s.2 status)
      have h1 : (logRecord.WriteHeader rw s.1 s.2 status).1.ip = s.1.ip ∧
          (logRecord.WriteHeader rw s.1 s.2 status).1.time = s.1.time := by
        unfold logRecord.WriteHeader
        cases s.1.responseWritten <;> simp
      exact ⟨h.1.trans h1.1, h.2.trans h1.2⟩

/-- C6: the address in the record that `ServeHTTP` sends to the writer is the remote
address itself when that has no colon, and otherwise what stands before its last colon:
the remote address is that, a colon, and a rest without a colon. For every host and
every port without a colon the address `host:port` gives the host. -/
theorem ip_is_address_before_last_colon {σ : Type} (rw : ResponseWriter σ)
    (handler : List Call) (now : Time) (r : Request) (w : σ) (ch : List logRecord) :
    (∃ lr : logRecord, (logHandler.ServeHTTP rw handler now r w ch).2 = ch ++ [lr] ∧
        lr.ip = stripPort r.RemoteAddr) ∧
      (':' ∉ r.RemoteAddr.toList → stripPort r.RemoteAddr = r.RemoteAddr) ∧
      (':' ∈ r.RemoteAddr.toList → ∃ rest : String, ':' ∉ rest.toList ∧
        r.RemoteAddr = stripPort r.RemoteAddr ++ ":" ++ rest) ∧
      (∀ host port : String, ':' ∉ port.toList → stripPort (host ++ ":" ++ port) = host) ∧
      stripPort "203.0.113.7:54321" = "203.0.113.7" := by
  refine ⟨⟨_, rfl, ?_⟩, fun hc => ?_, fun hc => ?_, stripPort_append, by decide⟩
  · exact (calls_keeps_request_fields rw handler (newLogRecord now r, w)).1
  · unfold stripPort LastIndex
    rcases lastIndexBelow_spec r.RemoteAddr.toList ':' r.RemoteAddr.toList.length with
      ⟨h1, _⟩ | ⟨k, _, h2, h3, _⟩
    · rw [h1]; rfl
    · exact absurd (List.get?_mem h3) hc
  · obtain ⟨rest, h1, h2⟩ := stripPort_split r.RemoteAddr hc
    refine ⟨String.mk rest, h1, ?_⟩
    apply String.ext
    simp only [String.data_append]
    rw [List.append_assoc]
    exact h2

end Website

/-! ## The counting transport -/

namespace Httputil

end Httputil

/-! ## Decimal formatting -/

namespace GoFmt

theorem toDigitsCore_eq (n : Nat) :
    ∀ (fuel : Nat) (ds : List Char), n < fuel →
      Nat.toDigitsCore 10 fuel n ds
        = (if n < 10 then [Nat.digitChar n]
            else Nat.toDigits 10 (n / 10) ++ [Nat.digitChar (n % 10)]) ++ ds := by
  induction n using Nat.strong_induction_on with
  | _ n ih =>
    intro fuel ds hf
    cases fuel with
    | zero => omega
    | succ f =>
      unfold Nat.toDigitsCore
      by_cases h : n < 10
      · have h0 : n / 10 = 0 := Nat.div_eq_of_lt h
        have h1 : n % 10 = n := Nat.mod_eq_of_lt h
        simp [h, h0, h1]
      · have h0 : n / 10 ≠ 0 := by omega
        have hlt : n / 10 < n := by omega
        simp only [h0, h, if_false]
        rw [ih (n / 10) hlt f _ (by omega)]
        have h2 : Nat.toDigits 10 (n / 10)
            = (if n / 10 < 10 then [Nat.digitChar (n / 10)]
                else Nat.toDigits 10 (n / 10 / 10) ++ [Nat.digitChar (n / 10 % 10)]) := by
          show Nat.toDigitsCore 10 (n / 10 + 1) (n / 10) [] = _
          rw [ih (n / 10) hlt (n / 10 + 1) [] (by omega)]
          simp
        rw [← h2]
        simp

/-- The digits of a number: one digit below 10, and otherwise the digits of the tenth
part followed by the last digit. -/
theorem decimal_eq (n : Nat) :
    decimal n = if n < 10 then [Nat.digitChar n]
      else decimal (n / 10) ++ [Nat.digitChar (n % 10)] := by
  unfold decimal
  have h := toDigitsCore_eq n (n + 1) [] (by omega)
  simp only [List.append_nil] at h
  exact h

end GoFmt

namespace Website

open GoFmt

theorem fixedDigits_zero (w : Nat) : fixedDigits w 0 = List.replicate w '0' := by
  induction w with
  | zero => rfl
  | succ w ih =>
    show fixedDigits w (0 / 10) ++ [Nat.digitChar (0 % 10)] = _
    rw [Nat.zero_div, ih, List.replicate_succ']
    rfl

theorem fixedDigits_length (w n : Nat) : (fixedDigits w n).length = w := by
  induction w generalizing n with
  | zero => rfl
  | succ w ih => simp [fixedDigits, ih]

/-- Zero padding to width `w` gives the `w` fixed digits of a number below `10^w`. -/
theorem pad_decimal (w : Nat) :
    ∀ n : Nat, n < 10 ^ (w + 1) →
      List.replicate (w + 1 - (decimal n).length) '0' ++ decimal n = fixedDigits (w + 1) n := by
  induction w with
  | zero =>
    intro n hn
    have h : n < 10 := by simpa using hn
    rw [decimal_eq]
    simp [h, fixedDigits, Nat.mod_eq_of_lt h]
  | succ w ih =>
    intro n hn
    rw [decimal_eq]
    by_cases h : n < 10
    · simp only [h, if_true, List.length_singleton]
      show _ = fixedDigits (w + 1) (n / 10) ++ [Nat.digitChar (n % 10)]
      rw [Nat.div_eq_of_lt h, Nat.mod_eq_of_lt h, fixedDigits_zero]
      rfl
    · simp only [h, if_false, List.length_append, List.length_singleton]
      show _ = fixedDigits (w + 1) (n / 10) ++ [Nat.digitChar (n % 10)]
      have hn2 : n / 10 < 10 ^ (w + 1) := by
        rw [Nat.div_lt_iff_lt_mul (by norm_num)]
        calc n < 10 ^ (w + 1 + 1) := hn
          _ = 10 ^ (w + 1) * 10 := by ring
      rw [← ih (n / 10) hn2, ← List.append_assoc]
      have hsub : w + 1 + 1 - ((decimal (n / 10)).length + 1)
          = w + 1 - (decimal (n / 10)).length := by omega
      rw [hsub]

/-- The verb `%0Wd` on a number from 0 up to `10^W` exclusive, `W` at least 1. -/
theorem fmtInteger_fixed (w n : Nat) (hn : n < 10 ^ (w + 1)) :
    fmtInteger (w + 1) (n : Int) = String.mk (fixedDigits (w + 1) n) := by
  unfold fmtInteger
  have h : ¬ ((n : Int) < 0) := by omega
  simp only [h, if_false, Int.natAbs_ofNat]
  rw [pad_decimal w n hn]

theorem fmtInteger_two (n : Nat) (hn : n < 100) : fmtInteger 2 (n : Int) = twoDigits n := by
  rw [fmtInteger_fixed 1 n (by simpa using hn)]
  have h : n / 10 % 10 = n / 10 := Nat.mod_eq_of_lt (by omega)
  simp [fixedDigits, twoDigits, h]

theorem fmtInteger_four (n : Nat) (hn : n < 10000) :
    fmtInteger 4 (n : Int) = fourDigits n := by
  rw [fmtInteger_fixed 3 n (by simpa using hn)]
  have h1 : n / 10 / 10 / 10 % 10 = n / 1000 := by omega
  have h2 : n / 10 / 10 % 10 = n / 100 % 10 := by omega
  simp [fixedDigits, fourDigits, h1, h2]

/-- The verb `%d` prints a number in plain decimal. -/
theorem fmtInteger_plain (n : Int) : fmtInteger 0 n = toString n := by
  unfold fmtInteger
  cases n with
  | ofNat m =>
    have h : ¬ (Int.ofNat m < 0) := by simp
    simp only [h, if_false]
    simp [decimal, toString, Nat.repr, List.asString]
  | negSucc m =>
    have h : Int.negSucc m < 0 := Int.negSucc_lt_zero m
    simp only [h, if_true]
    simp [decimal, toString, Nat.repr, List.asString, Int.natAbs]
    rfl

end Website

/-! ## The log line -/

namespace Website

open GoFmt

theorem escapedRune_plain (table : Char → Bool) (c : Char) (hc : plainChar c) :
    escapedRune table c = [c] := by
  obtain ⟨h1, h2, h3, h4⟩ := hc
  have hp : IsPrint table c = true := by
    unfold IsPrint
    have : c.toNat ≤ 0xFF := by omega
    simp [this, h1, h2]
  unfold escapedRune
  simp [h3, h4, hp]

theorem flatMap_escapedRune_plain (table : Char → Bool) (l : List Char)
    (hl : ∀ c ∈ l, plainChar c) : l.flatMap (escapedRune table) = l := by
  induction l with
  | nil => rfl
  | cons c rest ih =>
    rw [List.flatMap_cons, escapedRune_plain table c (hl c (List.mem_cons_self c rest)),
      ih (fun d hd => hl d (List.mem_cons_of_mem c hd))]
    rfl

/-- The verb `%q` on a string of plain characters puts it between double quotes. -/
theorem quote_plain (table : Char → Bool) (s : String) (hs : plainString s) :
    quote table s = "\"" ++ s ++ "\"" := by
  unfold quote
  rw [flatMap_escapedRune_plain table s.toList hs]
  apply String.ext
  simp [String.data_append, String.toList]

theorem plainString_append (a b : String) (ha : plainString a) (hb : plainString b) :
    plainString (a ++ b) := by
  intro c hc
  simp only [String.toList, String.data_append, List.mem_append] at hc
  rcases hc with h | h
  · exact ha c h
  · exact hb c h

theorem monthAbbr_english (m : Nat) (h1 : 1 ≤ m) (h2 : m ≤ 12) :
    monthAbbr.getD (m - 1) "" = englishMonth m := by
  interval_cases m <;> rfl

/-- The date of a record with a four-digit year. -/
theorem dateString_eq (t : Time) (hv : t.Valid) (hy : t.fourDigitYear) :
    dateString t = twoDigits t.day ++ "/" ++ englishMonth t.month ++ "/"
      ++ fourDigits t.year.toNat ++ ":" ++ twoDigits t.hour ++ ":" ++ twoDigits t.minute
      ++ ":" ++ twoDigits t.second ++ " -0000" := by
  obtain ⟨m1, m2, d1, d2, hh, hm, hs⟩ := hv
  obtain ⟨y1, y2⟩ := hy
  have hyear : t.year = ((t.year.toNat : Nat) : Int) := (Int.toNat_of_nonneg y1).symm
  unfold dateString
  rw [fmtInteger_two t.day (by omega), fmtInteger_two t.hour (by omega),
    fmtInteger_two t.minute (by omega), fmtInteger_two t.second (by omega),
    monthAbbr_english t.month m1 m2]
  have h4 : fmtInteger 4 ((t.year.toNat : Nat) : Int) = fourDigits t.year.toNat :=
    fmtInteger_four t.year.toNat (by omega)
  rw [← hyear] at h4
  rw [h4]

/-- C5: for a record whose year is in 0..9999 and whose method, raw path, protocol,
referer and user agent are made of printable ASCII characters other than the double
quote and the backslash, the line is
`<ip> - - [DD/Mon/YYYY:HH:MM:SS -0000] "<method> <rawpath> <proto>" <status> <bytes>
"<referer>" "<user-agent>"` and a newline: day, hour, minute and second in two digits,
the year in four, the English abbreviation of the month, status and bytes in plain
decimal. -/
theorem logLine_combined_log_format (table : Char → Bool) (lr : logRecord)
    (hv : lr.time.Valid) (hy : lr.time.fourDigitYear) (hmethod : plainString lr.method)
    (hpath : plainString lr.rawpath) (hproto : plainString lr.proto)
    (hreferer : plainString lr.referer) (hagent : plainString lr.userAgent) :
    logLine table lr
      = lr.ip ++ " - - [" ++ twoDigits lr.time.day ++ "/" ++ englishMonth lr.time.month
        ++ "/" ++ fourDigits lr.time.year.toNat ++ ":" ++ twoDigits lr.time.hour ++ ":"
        ++ twoDigits lr.time.minute ++ ":" ++ twoDigits lr.time.second ++ " -0000] \""
        ++ lr.method ++ " " ++ lr.rawpath ++ " " ++ lr.proto ++ "\" "
        ++ toString lr.responseStatus ++ " " ++ toString lr.responseBytes ++ " \""
        ++ lr.referer ++ "\" \"" ++ lr.userAgent ++ "\"\n" := by
  have hspace : plainString " " := by decide
  have hreq : plainString (lr.method ++ " " ++ lr.rawpath ++ " " ++ lr.proto) :=
    plainString_append _ _ (plainString_append _ _ (plainString_append _ _
      (plainString_append _ _ hmethod hspace) hpath) hspace) hproto
  unfold logLine
  rw [dateString_eq lr.time hv hy, quote_plain table _ hreq, quote_plain table _ hreferer,
    quote_plain table _ hagent, fmtInteger_plain, fmtInteger_plain]
  apply String.ext
  simp only [String.data_append, List.append_assoc]
  rfl

/-- The line of the example record. -/
theorem logLine_combined_log_format_example :
    logLine (fun _ => false) exampleRecord
      = "203.0.113.7" ++ " - - [" ++ twoDigits 2 ++ "/" ++ englishMonth 1
        ++ "/" ++ fourDigits 2024 ++ ":" ++ twoDigits 10 ++ ":"
        ++ twoDigits 59 ++ ":" ++ twoDigits 59 ++ " -0000] \""
        ++ "GET" ++ " " ++ "/index.html?q=1" ++ " " ++ "HTTP/1.1" ++ "\" "
        ++ toString (200 : Int) ++ " " ++ toString (5 : Int) ++ " \""
        ++ "http://example.org/" ++ "\" \"" ++ "curl/8.5.0" ++ "\"\n" :=
  logLine_combined_log_format (fun _ => false) exampleRecord (by decide) (by decide)
    (by decide) (by decide) (by decide) (by decide) (by decide)

theorem logLine_example_text :
    logLine (fun _ => false) exampleRecord
      = "203.0.113.7 - - [02/Jan/2024:10:59:59 -0000] \"GET /index.html?q=1 HTTP/1.1\" 200 5 \"http://example.org/\" \"curl/8.5.0\"\n" := by
  decide

end Website

/-! ## File names and the order of hours -/

namespace GoFmt

theorem char_eq_of_toNat_eq (a b : Char) (h : a.toNat = b.toNat) : a = b := by
  rw [← Char.ofNat_toNat a, h, Char.ofNat_toNat]

theorem stringLess_cons (a b : Char) (x y : List Char) :
    stringLess (a :: x) (b :: y)
      = if a.toNat < b.toNat then true
        else if b.toNat < a.toNat then false else stringLess x y := by
  rfl

theorem stringLess_cons_same (c : Char) (x y : List Char) :
    stringLess (c :: x) (c :: y) = stringLess x y := by
  rw [stringLess_cons]
  simp

theorem stringLess_irrefl (x : List Char) : stringLess x x = false := by
  induction x with
  | nil => rfl
  | cons c x ih => rw [stringLess_cons_same, ih]

theorem stringLess_append_same (p x y : List Char) :
    stringLess (p ++ x) (p ++ y) = stringLess x y := by
  induction p with
  | nil => rfl
  | cons c p ih => rw [List.cons_append, List.cons_append, stringLess_cons_same, ih]

/-- Comparing two strings that start with parts of the same length: the first parts
decide, and when they are equal the rests do. -/
theorem stringLess_append (x : List Char) :
    ∀ (y u v : List Char), x.length = y.length →
      (stringLess (x ++ u) (y ++ v) = true ↔
        stringLess x y = true ∨ (x = y ∧ stringLess u v = true)) := by
  induction x with
  | nil =>
    intro y u v hlen
    have hy : y = [] := List.length_eq_zero.mp hlen.symm
    subst hy
    simp [stringLess_irrefl]
  | cons a x ih =>
    intro y u v hlen
    cases y with
    | nil => simp at hlen
    | cons b y =>
      have hlen2 : x.length = y.length := by simpa using hlen
      rw [List.cons_append, List.cons_append, stringLess_cons, stringLess_cons]
      by_cases h1 : a.toNat < b.toNat
      · simp [h1]
      · by_cases h2 : b.toNat < a.toNat
        · have hne : a ≠ b := by
            intro h; rw [h] at h2; exact absurd h2 (Nat.lt_irrefl _)
          simp [h1, h2, hne]
        · have hab : a = b := char_eq_of_toNat_eq a b (by omega)
          subst hab
          simp only [h1, if_false, List.cons.injEq, true_and]
          exact ih y u v hlen2

theorem char_lt_iff (a b : Char) : a < b ↔ a.toNat < b.toNat := by
  exact Iff.rfl

theorem stringLess_iff_lt (x : List Char) : ∀ y : List Char, stringLess x y = true ↔ x < y := by
  induction x with
  | nil =>
    intro y
    cases y with
    | nil => simp [stringLess]
    | cons b y => simp [stringLess, List.nil_lt_cons]
  | cons a x ih =>
    intro y
    cases y with
    | nil =>
      simp only [stringLess, Bool.false_eq_true, false_iff]
      exact List.Lex.not_nil_right _ _
    | cons b y =>
      rw [stringLess_cons]
      by_cases h1 : a.toNat < b.toNat
      · simp only [h1, if_true, true_iff]
        exact List.Lex.rel ((char_lt_iff a b).mpr h1)
      · by_cases h2 : b.toNat < a.toNat
        · simp only [h1, h2, if_false, if_true, Bool.false_eq_true, false_iff]
          intro h
          cases h with
          | cons h => exact absurd h2 (Nat.lt_irrefl _)
          | rel h => exact h1 ((char_lt_iff a b).mp h)
        · have hab : a = b := char_eq_of_toNat_eq a b (by omega)
          subst hab
          simp only [h1, if_false]
          rw [ih y]
          exact (List.Lex.cons_iff).symm

theorem stringLess_iff_String_lt (s1 s2 : String) :
    stringLess s1.toList s2.toList = true ↔ s1 < s2 := by
  rw [String.lt_iff_toList_lt, stringLess_iff_lt]

end GoFmt

namespace Website

open GoFmt

theorem digitChar_toNat (d : Nat) (hd : d < 10) : (Nat.digitChar d).toNat = 48 + d := by
  interval_cases d <;> rfl

theorem stringLess_digit (a b : Nat) (ha : a < 10) (hb : b < 10) :
    stringLess [Nat.digitChar a] [Nat.digitChar b] = true ↔ a < b := by
  rw [stringLess_cons, digitChar_toNat a ha, digitChar_toNat b hb]
  by_cases h1 : 48 + a < 48 + b
  · simp [h1]; omega
  · by_cases h2 : 48 + b < 48 + a
    · simp [h1, h2]; omega
    · simp [h1, h2, stringLess]; omega

theorem digitChar_inj (a b : Nat) (ha : a < 10) (hb : b < 10) :
    Nat.digitChar a = Nat.digitChar b ↔ a = b := by
  constructor
  · intro h
    have h2 := congrArg Char.toNat h
    rw [digitChar_toNat a ha, digitChar_toNat b hb] at h2
    omega
  · intro h; rw [h]

/-- The fixed digits of numbers below `10^w` are ordered as the numbers are. -/
theorem fixedDigits_order (w : Nat) :
    ∀ a b : Nat, a < 10 ^ w → b < 10 ^ w →
      ((stringLess (fixedDigits w a) (fixedDigits w b) = true ↔ a < b) ∧
        (fixedDigits w a = fixedDigits w b ↔ a = b)) := by
  induction w with
  | zero =>
    intro a b ha hb
    have ha0 : a = 0 := by simpa using ha
    have hb0 : b = 0 := by simpa using hb
    subst ha0; subst hb0
    simp [fixedDigits, stringLess]
  | succ w ih =>
    intro a b ha hb
    have ha2 : a / 10 < 10 ^ w := by
      rw [Nat.div_lt_iff_lt_mul (by norm_num)]
      calc a < 10 ^ (w + 1) := ha
        _ = 10 ^ w * 10 := by ring
    have hb2 : b / 10 < 10 ^ w := by
      rw [Nat.div_lt_iff_lt_mul (by norm_num)]
      calc b < 10 ^ (w + 1) := hb
        _ = 10 ^ w * 10 := by ring
    obtain ⟨ih1, ih2⟩ := ih (a / 10) (b / 10) ha2 hb2
    have hlen : (fixedDigits w (a / 10)).length = (fixedDigits w (b / 10)).length := by
      rw [fixedDigits_length, fixedDigits_length]
    have hma : a % 10 < 10 := Nat.mod_lt a (by norm_num)
    have hmb : b % 10 < 10 := Nat.mod_lt b (by norm_num)
    show (stringLess (fixedDigits w (a / 10) ++ [Nat.digitChar (a % 10)])
        (fixedDigits w (b / 10) ++ [Nat.digitChar (b % 10)]) = true ↔ a < b) ∧
      (fixedDigits w (a / 10) ++ [Nat.digitChar (a % 10)]
        = fixedDigits w (b / 10) ++ [Nat.digitChar (b % 10)] ↔ a = b)
    constructor
    · rw [stringLess_append _ _ _ _ hlen, ih1, ih2, stringLess_digit _ _ hma hmb]
      omega
    · constructor
      · intro h
        obtain ⟨h1, h2⟩ := List.append_inj h hlen
        have h3 := ih2.mp h1
        have h4 := (digitChar_inj _ _ hma hmb).mp (List.singleton_inj.mp h2)
        omega
      · intro h; rw [h]

/-- The file name of a timestamp with a four-digit year, digit by digit. -/
theorem fileName_toList (dir : String) (t : Time) (hv : t.Valid) (hy : t.fourDigitYear) :
    (fileName dir t).toList
      = (dir.toList ++ ['/']) ++ (fixedDigits 4 t.year.toNat ++ ('-' ::
          (fixedDigits 2 t.month ++ ('-' :: (fixedDigits 2 t.day ++ ('h' ::
            (fixedDigits 2 t.hour ++ ['.', 'l', 'o', 'g']))))))) := by
  obtain ⟨m1, m2, d1, d2, hh, hm, hs⟩ := hv
  obtain ⟨y1, y2⟩ := hy
  have hyear : t.year = ((t.year.toNat : Nat) : Int) := (Int.toNat_of_nonneg y1).symm
  have h4 : fmtInteger 4 ((t.year.toNat : Nat) : Int) = String.mk (fixedDigits 4 t.year.toNat) :=
    fmtInteger_fixed 3 t.year.toNat (by norm_num; omega)
  rw [← hyear] at h4
  unfold fileName
  rw [h4, fmtInteger_fixed 1 t.month (by norm_num; omega),
    fmtInteger_fixed 1 t.day (by norm_num; omega),
    fmtInteger_fixed 1 t.hour (by norm_num; omega)]
  simp only [String.toList, String.data_append, List.append_assoc]
  rfl

/-- The file names of two timestamps with four-digit years: the first is less than the
second exactly when its date and hour come first, and they are equal exactly when date
and hour are. -/
theorem fileName_compare (dir : String) (t1 t2 : Time) (hv1 : t1.Valid) (hv2 : t2.Valid)
    (hy1 : t1.fourDigitYear) (hy2 : t2.fourDigitYear) :
    (stringLess (fileName dir t1).toList (fileName dir t2).toList = true ↔ t1.hourBefore t2) ∧
      (fileName dir t1 = fileName dir t2 ↔ t1.sameHour t2) := by
  have e1 := fileName_toList dir t1 hv1 hy1
  have e2 := fileName_toList dir t2 hv2 hy2
  obtain ⟨m1, m2, d1, d2, hh, _, _⟩ := hv1
  obtain ⟨m1', m2', d1', d2', hh', _, _⟩ := hv2
  obtain ⟨y1, y2⟩ := hy1
  obtain ⟨y1', y2'⟩ := hy2
  have oy := fixedDigits_order 4 t1.year.toNat t2.year.toNat (by norm_num; omega)
    (by norm_num; omega)
  have om := fixedDigits_order 2 t1.month t2.month (by norm_num; omega) (by norm_num; omega)
  have od := fixedDigits_order 2 t1.day t2.day (by norm_num; omega) (by norm_num; omega)
  have oh := fixedDigits_order 2 t1.hour t2.hour (by norm_num; omega) (by norm_num; omega)
  have l4 : (fixedDigits 4 t1.year.toNat).length = (fixedDigits 4 t2.year.toNat).length := by
    rw [fixedDigits_length, fixedDigits_length]
  have lm : (fixedDigits 2 t1.month).length = (fixedDigits 2 t2.month).length := by
    rw [fixedDigits_length, fixedDigits_length]
  have ld : (fixedDigits 2 t1.day).length = (fixedDigits 2 t2.day).length := by
    rw [fixedDigits_length, fixedDigits_length]
  have lh : (fixedDigits 2 t1.hour).length = (fixedDigits 2 t2.hour).length := by
    rw [fixedDigits_length, fixedDigits_length]
  have hyy : t1.year.toNat < t2.year.toNat ↔ t1.year < t2.year := by omega
  have hye : t1.year.toNat = t2.year.toNat ↔ t1.year = t2.year := by omega
  constructor
  · rw [e1, e2, stringLess_append_same, stringLess_append _ _ _ _ l4, stringLess_cons_same,
      stringLess_append _ _ _ _ lm, stringLess_cons_same, stringLess_append _ _ _ _ ld,
      stringLess_cons_same, stringLess_append _ _ _ _ lh, stringLess_irrefl,
      oy.1, oy.2, om.1, om.2, od.1, od.2, oh.1, oh.2, hyy, hye]
    unfold Time.hourBefore
    simp
  · rw [← String.toList_inj, e1, e2, List.append_right_inj]
    unfold Time.sameHour
    constructor
    · intro h
      obtain ⟨a1, a2⟩ := List.append_inj h l4
      obtain ⟨b1, b2⟩ := List.append_inj (List.cons.inj a2).2 lm
      obtain ⟨c1, c2⟩ := List.append_inj (List.cons.inj b2).2 ld
      obtain ⟨e1, _⟩ := List.append_inj (List.cons.inj c2).2 lh
      exact ⟨hye.mp (oy.2.mp a1), om.2.mp b1, od.2.mp c1, oh.2.mp e1⟩
    · rintro ⟨a, b, c, d⟩
      rw [a, b, c, d]

end Website

namespace Website

open GoFmt

/-- C9: for a fixed directory and two timestamps with years in 0..9999, the file name
of the first is less than that of the second, in the order of strings, exactly when its
(year, month, day, hour) comes first, and the names are equal exactly when date and
hour are; the comparison the writer makes for rotation is that order. -/
theorem fileName_order_is_order_of_hours (dir : String) (t1 t2 : Time) (hv1 : t1.Valid)
    (hv2 : t2.Valid) (hy1 : t1.fourDigitYear) (hy2 : t2.fourDigitYear) :
    (fileName dir t1 < fileName dir t2 ↔ t1.hourBefore t2) ∧
      (fileName dir t1 = fileName dir t2 ↔ t1.sameHour t2) ∧
      (stringLess (fileName dir t1).toList (fileName dir t2).toList = true
        ↔ t1.hourBefore t2) := by
  obtain ⟨h1, h2⟩ := fileName_compare dir t1 t2 hv1 hv2 hy1 hy2
  exact ⟨(stringLess_iff_String_lt _ _).symm.trans h1, h2, h1⟩

/-- The names for 10:59:59 and 11:00:00 of the same day, and for the last hour of a year
and the first of the next. -/
theorem fileName_order_examples :
    fileName "/var/log" exampleTime < fileName "/var/log" ⟨2024, 1, 2, 11, 0, 0⟩ ∧
      fileName "/var/log" ⟨2024, 12, 31, 23, 59, 59⟩
        < fileName "/var/log" ⟨2025, 1, 1, 0, 0, 0⟩ ∧
      fileName "/var/log" exampleTime = fileName "/var/log" ⟨2024, 1, 2, 10, 0, 0⟩ :=
  ⟨(fileName_order_is_order_of_hours "/var/log" exampleTime ⟨2024, 1, 2, 11, 0, 0⟩
      (by decide) (by decide) (by decide) (by decide)).1.mpr (by decide),
    (fileName_order_is_order_of_hours "/var/log" ⟨2024, 12, 31, 23, 59, 59⟩
      ⟨2025, 1, 1, 0, 0, 0⟩ (by decide) (by decide) (by decide) (by decide)).1.mpr
      (by decide),
    (fileName_order_is_order_of_hours "/var/log" exampleTime ⟨2024, 1, 2, 10, 0, 0⟩
      (by decide) (by decide) (by decide) (by decide)).2.1.mpr (by decide)⟩

end Website

/-! ## The writer: one turn of the loop -/

namespace Website

open GoFmt

/-- The lines a turn writes, to standard output if enabled, and to the open file. -/
theorem logStep_keep (table : Char → Bool) (h : logHandler) (st : WriterState)
    (lr : logRecord) (openErr : Option String)
    (hk : h.dir = "" ∨ stringLess st.lastFileName.toList (fileName h.dir lr.time).toList = false) :
    logStep table h st lr openErr
      = (st, (if h.stdout then [Event.stdoutWrite (logLine table lr)] else [])
          ++ (match st.logFile with
            | some f => [Event.fileWrite f (logLine table lr)]
            | none => [])) := by
  unfold logStep
  rcases hk with hk | hk
  · simp only [hk, ne_eq, not_true_eq_false, if_false]
    cases h.stdout <;> cases st.logFile <;> simp
  · simp only [hk, Bool.false_eq_true, if_false, ite_self]
    cases h.stdout <;> cases st.logFile <;> simp

/-- A turn that rotates and whose open succeeds. -/
theorem logStep_rotate (table : Char → Bool) (h : logHandler) (st : WriterState)
    (lr : logRecord) (hdir : h.dir ≠ "")
    (hlt : stringLess st.lastFileName.toList (fileName h.dir lr.time).toList = true) :
    logStep table h st lr none
      = ({ lastFileName := fileName h.dir lr.time, logFile := some (fileName h.dir lr.time) },
          (match st.logFile with
            | some f => [Event.close f]
            | none => []) ++ [Event.openFile (fileName h.dir lr.time) true]
          ++ (if h.stdout then [Event.stdoutWrite (logLine table lr)] else [])
          ++ [Event.fileWrite (fileName h.dir lr.time) (logLine table lr)]) := by
  unfold logStep
  simp only [hdir, ne_eq, not_false_eq_true, if_true, hlt]
  cases h.stdout <;> cases st.logFile <;> simp

/-- A turn that rotates and whose open fails. -/
theorem logStep_open_fails (table : Char → Bool) (h : logHandler) (st : WriterState)
    (lr : logRecord) (e : String) (hdir : h.dir ≠ "")
    (hlt : stringLess st.lastFileName.toList (fileName h.dir lr.time).toList = true) :
    logStep table h st lr (some e)
      = ({ lastFileName := st.lastFileName, logFile := none },
          (match st.logFile with
            | some f => [Event.close f]
            | none => []) ++ [Event.openFile (fileName h.dir lr.time) false,
            Event.processLog ("Error opening " ++ quote table (fileName h.dir lr.time) ++ ": "
              ++ e)]) := by
  unfold logStep
  simp only [hdir, ne_eq, not_false_eq_true, if_true, hlt]

theorem fileWrites_append (a b : List Event) :
    fileWrites (a ++ b) = fileWrites a ++ fileWrites b := by
  induction a with
  | nil => rfl
  | cons e a ih => cases e <;> simp [fileWrites, ih]

theorem stdoutLines_append (a b : List Event) :
    stdoutLines (a ++ b) = stdoutLines a ++ stdoutLines b := by
  induction a with
  | nil => rfl
  | cons e a ih => cases e <;> simp [stdoutLines, ih]

theorem opened_append (a b : List Event) : opened (a ++ b) = opened a ++ opened b := by
  induction a with
  | nil => rfl
  | cons e a ih =>
    cases e with
    | openFile name ok => cases ok <;> simp [opened, ih]
    | close f => simp [opened, ih]
    | processLog m => simp [opened, ih]
    | stdoutWrite l => simp [opened, ih]
    | fileWrite f l => simp [opened, ih]

theorem fileLines_append (name : String) (a b : List Event) :
    fileLines name (a ++ b) = fileLines name a ++ fileLines name b := by
  simp [fileLines, fileWrites_append]

theorem logLoop_cons (table : Char → Bool) (h : logHandler) (st : WriterState)
    (lr : logRecord) (openErr : Option String) (rest : List (logRecord × Option String)) :
    logLoop table h st ((lr, openErr) :: rest)
      = ((logLoop table h (logStep table h st lr openErr).1 rest).1,
          (logStep table h st lr openErr).2
            ++ (logLoop table h (logStep table h st lr openErr).1 rest).2) := by
  rfl

/-- What a turn writes to standard output when mirroring is enabled: the line of the
record, except in a turn whose open fails, which writes nothing there. -/
theorem logStep_stdoutLines (table : Char → Bool) (h : logHandler) (st : WriterState)
    (lr : logRecord) (openErr : Option String) (hstdout : h.stdout = true) :
    stdoutLines (logStep table h st lr openErr).2
      = if h.dir ≠ "" ∧ stringLess st.lastFileName.toList (fileName h.dir lr.time).toList = true
            ∧ openErr.isSome = true
          then [] else [logLine table lr] := by
  by_cases hdir : h.dir = ""
  · rw [logStep_keep table h st lr openErr (Or.inl hdir)]
    simp only [hdir, ne_eq, not_true_eq_false, false_and, if_false, hstdout, if_true]
    cases st.logFile <;> simp [stdoutLines]
  · cases hlt : stringLess st.lastFileName.toList (fileName h.dir lr.time).toList with
    | false =>
      rw [logStep_keep table h st lr openErr (Or.inr hlt)]
      simp only [Bool.false_eq_true, false_and, and_false, if_false, hstdout, if_true]
      cases st.logFile <;> simp [stdoutLines]
    | true =>
      cases openErr with
      | none =>
        rw [logStep_rotate table h st lr hdir hlt]
        simp only [Option.isSome_none, Bool.false_eq_true, and_false, if_false, hstdout,
          if_true]
        cases st.logFile <;> simp [stdoutLines]
      | some e =>
        rw [logStep_open_fails table h st lr e hdir hlt]
        simp only [ne_eq, hdir, not_false_eq_true, Option.isSome_some, and_self, if_true]
        cases st.logFile <;> simp [stdoutLines]

end Website

/-! ## The writer: a failed open -/

namespace Website

open GoFmt

/-- C3, on the code: with mirroring enabled a turn writes exactly the line of its record
to standard output, unless the turn rotates and the open fails: then nothing is written
to standard output for that record. -/
theorem stdout_one_line_unless_open_fails (table : Char → Bool) (h : logHandler)
    (st : WriterState) (lr : logRecord) (openErr : Option String) (hstdout : h.stdout = true) :
    (¬ (h.dir ≠ "" ∧ stringLess st.lastFileName.toList (fileName h.dir lr.time).toList = true
          ∧ openErr.isSome = true) →
        stdoutLines (logStep table h st lr openErr).2 = [logLine table lr]) ∧
      ((h.dir ≠ "" ∧ stringLess st.lastFileName.toList (fileName h.dir lr.time).toList = true
          ∧ openErr.isSome = true) →
        stdoutLines (logStep table h st lr openErr).2 = []) := by
  rw [logStep_stdoutLines table h st lr openErr hstdout]
  constructor
  · intro hn; rw [if_neg hn]
  · intro hp; rw [if_pos hp]

/-- The first record of a writer with directory `/var/log` and mirroring enabled, when
the open fails: the turn reports the error to the process log and writes nothing to
standard output. -/
theorem stdout_empty_when_first_open_fails :
    stdoutLines (logStep (fun _ => false) ⟨"/var/log", true⟩ WriterState.initial exampleRecord
        (some "permission denied")).2 = [] ∧
      (logStep (fun _ => false) ⟨"/var/log", true⟩ WriterState.initial exampleRecord
        (some "permission denied")).2
        = [Event.openFile "/var/log/2024-01-02h10.log" false,
            Event.processLog
              "Error opening \"/var/log/2024-01-02h10.log\": permission denied"] :=
  ⟨(stdout_one_line_unless_open_fails (fun _ => false) ⟨"/var/log", true⟩ WriterState.initial
      exampleRecord (some "permission denied") rfl).2 ⟨by decide, by decide, rfl⟩,
    by decide⟩

end Website

/-! ## The writer: rotation by the hour when every open succeeds -/

namespace Website

open GoFmt

theorem fileName_nonempty (dir : String) (t : Time) : "" < fileName dir t := by
  rw [← stringLess_iff_String_lt]
  have h : ∃ rest, (fileName dir t).toList = dir.toList ++ '/' :: rest := by
    unfold fileName
    simp only [String.toList, String.data_append, List.append_assoc]
    exact ⟨_, rfl⟩
  obtain ⟨rest, hr⟩ := h
  rw [hr]
  cases dir.toList <;> rfl

/-- A turn whose open succeeds, in a state where the open file, if any, is the one of
the last-used name, and on a record whose name is not below the last-used name, rotates
by the hour. -/
theorem logStep_hourly (table : Char → Bool) (h : logHandler) (st : WriterState)
    (lr : logRecord) (hdir : h.dir ≠ "")
    (hinv : (st.logFile = none ∧ st.lastFileName = "") ∨ st.logFile = some st.lastFileName)
    (hle : st.lastFileName ≤ fileName h.dir lr.time) :
    logStep table h st lr none
      = ({ lastFileName := fileName h.dir lr.time, logFile := some (fileName h.dir lr.time) },
          hourlyStep table h st.logFile lr) := by
  rcases lt_or_eq_of_le hle with hlt | heq
  · have hne : st.lastFileName ≠ fileName h.dir lr.time := ne_of_lt hlt
    rw [logStep_rotate table h st lr hdir ((stringLess_iff_String_lt _ _).mpr hlt)]
    unfold hourlyStep
    rcases hinv with ⟨h1, _⟩ | h1
    · rw [h1]; simp
    · rw [h1]; simp [hne]
  · have hk : stringLess st.lastFileName.toList (fileName h.dir lr.time).toList = false := by
      rw [heq]; exact stringLess_irrefl _
    rw [logStep_keep table h st lr none (Or.inr hk)]
    unfold hourlyStep
    rcases hinv with ⟨_, h2⟩ | h1
    · have := fileName_nonempty h.dir lr.time
      rw [← heq, h2] at this
      exact absurd this (lt_irrefl _)
    · obtain ⟨last, file⟩ := st
      simp only at h1 heq
      subst h1; subst heq
      simp

/-- The loop, when every open succeeds and the names of the records never go down, is
rotation by the hour. -/
theorem logLoop_hourly (table : Char → Bool) (h : logHandler) (hdir : h.dir ≠ "")
    (rs : List logRecord) :
    ∀ st : WriterState,
      ((st.logFile = none ∧ st.lastFileName = "") ∨ st.logFile = some st.lastFileName) →
      List.Chain (· ≤ ·) st.lastFileName (rs.map (fun r => fileName h.dir r.time)) →
      (logLoop table h st (rs.map (fun r => (r, none)))).2 = hourlyTrace table h st.logFile rs := by
  induction rs with
  | nil => intro st _ _; rfl
  | cons r rest ih =>
    intro st hinv hchain
    rw [List.map_cons, List.chain_cons] at hchain
    rw [List.map_cons, logLoop_cons, logStep_hourly table h st r hdir hinv hchain.1]
    show _ ++ (logLoop table h _ (rest.map (fun r => (r, none)))).2 = _
    rw [ih _ (Or.inr rfl) hchain.2]
    rfl

/-- Records in time order have file names in the order of strings. -/
theorem names_chain (dir : String) (rest : List logRecord) :
    ∀ r : logRecord, r.time.Valid → r.time.fourDigitYear →
      (∀ x ∈ rest, x.time.Valid ∧ x.time.fourDigitYear) →
      List.Chain (fun a b : logRecord => a.time.notAfter b.time) r rest →
      List.Chain (· ≤ ·) (fileName dir r.time) (rest.map (fun x => fileName dir x.time)) := by
  induction rest with
  | nil => intro r _ _ _ _; exact List.Chain.nil
  | cons x rest ih =>
    intro r hv hy hall hchain
    rw [List.chain_cons] at hchain
    obtain ⟨hxv, hxy⟩ := hall x (List.mem_cons_self _ _)
    rw [List.map_cons, List.chain_cons]
    refine ⟨?_, ih x hxv hxy (fun y hy => hall y (List.mem_cons_of_mem _ hy)) hchain.2⟩
    obtain ⟨c1, c2⟩ := fileName_compare dir r.time x.time hv hxv hy hxy
    rcases hchain.1 with hb | ⟨hs, _⟩
    · exact le_of_lt ((stringLess_iff_String_lt _ _).mp (c1.mpr hb))
    · exact le_of_eq (c2.mpr hs)

theorem fileWrites_hourlyTrace (table : Char → Bool) (h : logHandler) (rs : List logRecord) :
    ∀ cur : Option String,
      fileWrites (hourlyTrace table h cur rs)
        = rs.map (fun r => (fileName h.dir r.time, logLine table r)) := by
  induction rs with
  | nil => intro cur; rfl
  | cons r rest ih =>
    intro cur
    show fileWrites (hourlyStep table h cur r ++ hourlyTrace table h _ rest) = _
    rw [fileWrites_append, ih]
    unfold hourlyStep
    rw [fileWrites_append, fileWrites_append]
    cases cur <;> cases h.stdout <;> simp [fileWrites] <;> split <;> simp [fileWrites]

theorem opened_hourlyTrace (table : Char → Bool) (h : logHandler) (rs : List logRecord) :
    ∀ cur : Option String,
      opened (hourlyTrace table h cur rs)
        = rotations cur (rs.map (fun r => fileName h.dir r.time)) := by
  induction rs with
  | nil => intro cur; rfl
  | cons r rest ih =>
    intro cur
    show opened (hourlyStep table h cur r ++ hourlyTrace table h _ rest) = _
    rw [opened_append, ih]
    show _ = (if cur = some (fileName h.dir r.time) then [] else [fileName h.dir r.time])
      ++ rotations (some (fileName h.dir r.time)) _
    congr 1
    unfold hourlyStep
    rw [opened_append, opened_append]
    cases cur <;> cases h.stdout <;> simp [opened] <;> split <;> simp [opened]

theorem oneFileAtATime_hourlyStep (table : Char → Bool) (h : logHandler) (cur : Option String)
    (r : logRecord) (rest : List Event) :
    oneFileAtATime cur (hourlyStep table h cur r ++ rest)
      = oneFileAtATime (some (fileName h.dir r.time)) rest := by
  unfold hourlyStep
  by_cases hc : cur = some (fileName h.dir r.time)
  · subst hc
    cases h.stdout <;> simp [oneFileAtATime]
  · cases cur with
    | none => cases h.stdout <;> simp [oneFileAtATime]
    | some f => cases h.stdout <;> simp [hc, oneFileAtATime]

theorem oneFileAtATime_hourlyTrace (table : Char → Bool) (h : logHandler)
    (rs : List logRecord) :
    ∀ cur : Option String, oneFileAtATime cur (hourlyTrace table h cur rs) = true := by
  induction rs with
  | nil => intro cur; rfl
  | cons r rest ih =>
    intro cur
    show oneFileAtATime cur (hourlyStep table h cur r ++ hourlyTrace table h _ rest) = true
    rw [oneFileAtATime_hourlyStep, ih]

theorem mem_of_mem_rotations (names : List String) :
    ∀ (cur : Option String) (x : String), x ∈ rotations cur names → x ∈ names := by
  induction names with
  | nil => intro cur x hx; exact hx
  | cons y ys ih =>
    intro cur x hx
    unfold rotations at hx
    rw [List.mem_append] at hx
    rcases hx with hx | hx
    · by_cases hc : cur = some y
      · simp [hc] at hx
      · simp only [hc, if_false, List.mem_singleton] at hx
        rw [hx]; exact List.mem_cons_self _ _
    · exact List.mem_cons_of_mem _ (ih _ x hx)

theorem mem_rotations_of_mem (names : List String) :
    ∀ (cur : Option String) (x : String), x ∈ names →
      x ∈ rotations cur names ∨ cur = some x := by
  induction names with
  | nil => intro cur x hx; exact absurd hx (List.not_mem_nil x)
  | cons y ys ih =>
    intro cur x hx
    have hy : y ∈ rotations cur (y :: ys) ∨ cur = some y := by
      by_cases hc : cur = some y
      · exact Or.inr hc
      · left
        unfold rotations
        simp [hc]
    rcases List.mem_cons.mp hx with hxy | hxs
    · rw [hxy]; exact hy
    · rcases ih (some y) x hxs with h1 | h1
      · left
        unfold rotations
        exact List.mem_append_right _ h1
      · have : y = x := Option.some.inj h1
        rw [← this]; exact hy

/-- When the names never go down, the names opened go up strictly. -/
theorem rotations_sorted (names : List String) :
    ∀ c : String, List.Chain (· ≤ ·) c names →
      List.Pairwise (· < ·) (rotations (some c) names) ∧
        ∀ x ∈ rotations (some c) names, c < x := by
  induction names with
  | nil => intro c _; exact ⟨List.Pairwise.nil, fun x hx => absurd hx (List.not_mem_nil x)⟩
  | cons y ys ih =>
    intro c hchain
    rw [List.chain_cons] at hchain
    obtain ⟨ih1, ih2⟩ := ih y hchain.2
    unfold rotations
    by_cases hc : c = y
    · subst hc
      simp only [if_true, List.nil_append]
      exact ⟨ih1, ih2⟩
    · have hcy : c < y := lt_of_le_of_ne hchain.1 hc
      have hne : ¬ (some c = some y) := fun hh => hc (Option.some.inj hh)
      simp only [hne, if_false, List.singleton_append]
      refine ⟨List.Pairwise.cons ih2 ih1, fun x hx => ?_⟩
      rcases List.mem_cons.mp hx with hxy | hxs
      · rw [hxy]; exact hcy
      · exact lt_trans hcy (ih2 x hxs)

theorem rotations_nodup (names : List String) (hchain : List.Chain' (· ≤ ·) names) :
    (rotations none names).Nodup := by
  cases names with
  | nil => exact List.nodup_nil
  | cons y ys =>
    obtain ⟨h1, h2⟩ := rotations_sorted ys y hchain
    show (([y] : List String) ++ rotations (some y) ys).Nodup
    rw [List.singleton_append, List.nodup_cons]
    exact ⟨fun hy => absurd (h2 y hy) (lt_irrefl _), h1.imp (fun hab => ne_of_lt hab)⟩

end Website

namespace Website

open GoFmt

/-- From the initial state, with every open succeeding and records in time order with
four-digit years, the writer rotates by the hour. -/
theorem logFromChannel_hourly (table : Char → Bool) (h : logHandler) (rs : List logRecord)
    (hdir : h.dir ≠ "") (hvalid : ∀ r ∈ rs, r.time.Valid ∧ r.time.fourDigitYear)
    (hsorted : List.Chain' (fun a b : logRecord => a.time.notAfter b.time) rs) :
    (logFromChannel table h (rs.map (fun r => (r, none)))).2 = hourlyTrace table h none rs ∧
      List.Chain' (· ≤ ·) (rs.map (fun r => fileName h.dir r.time)) := by
  cases rs with
  | nil => exact ⟨rfl, List.chain'_nil⟩
  | cons r rest =>
    obtain ⟨hv, hy⟩ := hvalid r (List.mem_cons_self _ _)
    have hc := names_chain h.dir rest r hv hy
      (fun x hx => hvalid x (List.mem_cons_of_mem _ hx)) hsorted
    refine ⟨?_, hc⟩
    apply logLoop_hourly table h hdir (r :: rest) WriterState.initial (Or.inl ⟨rfl, rfl⟩)
    rw [List.map_cons, List.chain_cons]
    exact ⟨le_of_lt (fileName_nonempty h.dir r.time), hc⟩

theorem nodup_all_eq (l : List String) (x : String) (hn : l.Nodup) (hx : x ∈ l)
    (hall : ∀ y ∈ l, y = x) : l = [x] := by
  cases l with
  | nil => exact absurd hx (List.not_mem_nil x)
  | cons a rest =>
    have ha : a = x := hall a (List.mem_cons_self _ _)
    cases rest with
    | nil => rw [ha]
    | cons b rest2 =>
      have hb : b = x := hall b (List.mem_cons_of_mem _ (List.mem_cons_self _ _))
      rw [List.nodup_cons] at hn
      exact absurd (by rw [ha, hb]; exact List.mem_cons_self _ _) hn.1

/-- C4, amended with the range of years: a writer started fresh with a non-empty
directory, given records with years in 0..9999 in time order, every open succeeding.
No file is opened twice and the files opened are those of the dates and hours of the
records, each opened once, two records having the same file exactly when they have the
same date and hour; no file is opened while another is open; the lines appended
to the file of a date and hour are the lines of the records of that date and hour, in
the order received; and records that all fall in one hour open one file, which holds
all their lines. -/
theorem one_file_per_hour (table : Char → Bool) (h : logHandler) (rs : List logRecord)
    (hdir : h.dir ≠ "") (hvalid : ∀ r ∈ rs, r.time.Valid ∧ r.time.fourDigitYear)
    (hsorted : List.Chain' (fun a b : logRecord => a.time.notAfter b.time) rs) :
    (opened (logFromChannel table h (rs.map (fun r => (r, none)))).2).Nodup ∧
      (∀ name : String,
        name ∈ opened (logFromChannel table h (rs.map (fun r => (r, none)))).2
          ↔ ∃ r ∈ rs, fileName h.dir r.time = name) ∧
      (∀ r ∈ rs,
        (opened (logFromChannel table h (rs.map (fun r => (r, none)))).2).count
          (fileName h.dir r.time) = 1) ∧
      (∀ r1 ∈ rs, ∀ r2 ∈ rs,
        (fileName h.dir r1.time = fileName h.dir r2.time ↔ r1.time.sameHour r2.time)) ∧
      oneFileAtATime none (logFromChannel table h (rs.map (fun r => (r, none)))).2 = true ∧
      (∀ t : Time, t.Valid → t.fourDigitYear →
        fileLines (fileName h.dir t) (logFromChannel table h (rs.map (fun r => (r, none)))).2
          = (rs.filter (fun r => decide (r.time.sameHour t))).map (logLine table)) ∧
      (∀ r0 ∈ rs, (∀ r ∈ rs, r.time.sameHour r0.time) →
        opened (logFromChannel table h (rs.map (fun r => (r, none)))).2
            = [fileName h.dir r0.time] ∧
          fileLines (fileName h.dir r0.time)
              (logFromChannel table h (rs.map (fun r => (r, none)))).2
            = rs.map (logLine table)) := by
  obtain ⟨htr, hnames⟩ := logFromChannel_hourly table h rs hdir hvalid hsorted
  rw [htr]
  have hnodup : (opened (hourlyTrace table h none rs)).Nodup := by
    rw [opened_hourlyTrace]; exact rotations_nodup _ hnames
  have hmem : ∀ name : String, name ∈ opened (hourlyTrace table h none rs)
      ↔ ∃ r ∈ rs, fileName h.dir r.time = name := by
    intro name
    rw [opened_hourlyTrace]
    constructor
    · intro hx
      have := mem_of_mem_rotations _ none name hx
      rw [List.mem_map] at this
      exact this
    · intro hx
      have hm : name ∈ rs.map (fun r => fileName h.dir r.time) := List.mem_map.mpr hx
      rcases mem_rotations_of_mem _ none name hm with h1 | h1
      · exact h1
      · exact absurd h1 (by simp)
  have hlines : ∀ t : Time, t.Valid → t.fourDigitYear →
      fileLines (fileName h.dir t) (hourlyTrace table h none rs)
        = (rs.filter (fun r => decide (r.time.sameHour t))).map (logLine table) := by
    intro t hv hy
    unfold fileLines
    rw [fileWrites_hourlyTrace, List.filter_map, List.map_map]
    have hf : rs.filter ((fun x : String × String => decide (x.1 = fileName h.dir t))
          ∘ fun r => (fileName h.dir r.time, logLine table r))
        = rs.filter (fun r => decide (r.time.sameHour t)) := by
      apply List.filter_congr
      intro r hr
      obtain ⟨hrv, hry⟩ := hvalid r hr
      have := (fileName_compare h.dir r.time t hrv hv hry hy).2
      simp only [Function.comp, decide_eq_decide]
      exact this
    rw [hf]
    rfl
  refine ⟨hnodup, hmem, fun r hr => ?_, fun r1 hr1 r2 hr2 => ?_,
    oneFileAtATime_hourlyTrace table h rs none, hlines, fun r0 hr0 hall => ⟨?_, ?_⟩⟩
  · exact List.count_eq_one_of_mem hnodup ((hmem _).mpr ⟨r, hr, rfl⟩)
  · exact (fileName_compare h.dir r1.time r2.time (hvalid r1 hr1).1 (hvalid r2 hr2).1
      (hvalid r1 hr1).2 (hvalid r2 hr2).2).2
  · apply nodup_all_eq _ _ hnodup ((hmem _).mpr ⟨r0, hr0, rfl⟩)
    intro y hy
    obtain ⟨r, hr, hry⟩ := (hmem y).mp hy
    obtain ⟨hrv, hry2⟩ := hvalid r hr
    obtain ⟨h0v, h0y⟩ := hvalid r0 hr0
    rw [← hry]
    exact (fileName_compare h.dir r.time r0.time hrv h0v hry2 h0y).2.mpr (hall r hr)
  · obtain ⟨h0v, h0y⟩ := hvalid r0 hr0
    rw [hlines r0.time h0v h0y]
    congr 1
    rw [List.filter_eq_self]
    intro r hr
    simp only [decide_eq_true_eq]
    exact hall r hr

/-- The scenario S5: records at 10:59:59, 10:59:59 and 11:00:00 of 2024-01-02. The
file of 10:00 gets the first two lines and is closed before the file of 11:00 is opened,
which gets the third. -/
theorem one_file_per_hour_S5 :
    fileLines (fileName "/var/log" exampleTime)
        (logFromChannel (fun _ => false) ⟨"/var/log", false⟩
          ([exampleRecord, exampleRecord,
            { exampleRecord with time := ⟨2024, 1, 2, 11, 0, 0⟩ }].map
              (fun r => (r, none)))).2
      = ([exampleRecord, exampleRecord,
          { exampleRecord with time := ⟨2024, 1, 2, 11, 0, 0⟩ }].filter
            (fun r => decide (r.time.sameHour exampleTime))).map (logLine (fun _ => false)) ∧
    (logFromChannel (fun _ => false) ⟨"/var/log", false⟩
        [(exampleRecord, none), (exampleRecord, none),
          ({ exampleRecord with time := ⟨2024, 1, 2, 11, 0, 0⟩ }, none)]).2
      = [Event.openFile "/var/log/2024-01-02h10.log" true,
          Event.fileWrite "/var/log/2024-01-02h10.log" (logLine (fun _ => false) exampleRecord),
          Event.fileWrite "/var/log/2024-01-02h10.log" (logLine (fun _ => false) exampleRecord),
          Event.close "/var/log/2024-01-02h10.log",
          Event.openFile "/var/log/2024-01-02h11.log" true,
          Event.fileWrite "/var/log/2024-01-02h11.log"
            (logLine (fun _ => false) { exampleRecord with time := ⟨2024, 1, 2, 11, 0, 0⟩ })] :=
  ⟨(one_file_per_hour (fun _ => false) ⟨"/var/log", false⟩
      [exampleRecord, exampleRecord, { exampleRecord with time := ⟨2024, 1, 2, 11, 0, 0⟩ }]
      (by decide) (by decide)
      (List.Chain'.cons (by decide) (List.chain'_pair.mpr (by decide)))).2.2.2.2.2.1
      exampleTime (by decide) (by decide),
    by decide⟩

/-- C4, as stated, fails past the year 9999: records at 9999-12-31 23:59:59 and
10000-01-01 00:00:00 are in time order, but the name for the second, which starts with
`10000`, is below the name for the first, so the writer does not rotate: one file is
opened for two hours, and the line of the second record goes to the file of the first. -/
theorem one_file_per_hour_fails_after_year_9999 :
    List.Chain' (fun a b : logRecord => a.time.notAfter b.time)
        [{ exampleRecord with time := ⟨9999, 12, 31, 23, 59, 59⟩ },
          { exampleRecord with time := ⟨10000, 1, 1, 0, 0, 0⟩ }] ∧
    (⟨9999, 12, 31, 23, 59, 59⟩ : Time).Valid ∧ (⟨10000, 1, 1, 0, 0, 0⟩ : Time).Valid ∧
    fileName "/var/log" ⟨10000, 1, 1, 0, 0, 0⟩ = "/var/log/10000-01-01h00.log" ∧
    (logFromChannel (fun _ => false) ⟨"/var/log", false⟩
        [({ exampleRecord with time := ⟨9999, 12, 31, 23, 59, 59⟩ }, none),
          ({ exampleRecord with time := ⟨10000, 1, 1, 0, 0, 0⟩ }, none)]).2
      = [Event.openFile "/var/log/9999-12-31h23.log" true,
          Event.fileWrite "/var/log/9999-12-31h23.log"
            (logLine (fun _ => false)
              { exampleRecord with time := ⟨9999, 12, 31, 23, 59, 59⟩ }),
          Event.fileWrite "/var/log/9999-12-31h23.log"
            (logLine (fun _ => false)
              { exampleRecord with time := ⟨10000, 1, 1, 0, 0, 0⟩ })] ∧
    fileLines "/var/log/10000-01-01h00.log"
        (logFromChannel (fun _ => false) ⟨"/var/log", false⟩
          [({ exampleRecord with time := ⟨9999, 12, 31, 23, 59, 59⟩ }, none),
            ({ exampleRecord with time := ⟨10000, 1, 1, 0, 0, 0⟩ }, none)]).2 = [] :=
  ⟨List.chain'_pair.mpr (by decide), by decide, by decide, by decide, by decide, by decide⟩

end Website
